import Mathlib

/-!
Verification of the safety-seal-checker search engine and category routes.

The definitions below are a shallow embedding of the Python source:
  - src/app/routers/search.py      (search_categories)
  - src/app/routers/categories.py  (list_categories, get_category)
  - src/app/models/category.py     (ProductCategory, ProductKeyword)
  - src/app/schemas/category.py    (CategorySummary, CategoryDetail)
  - src/app/schemas/search.py      (SearchResult)

Strings are manipulated as `List Char` (Python code points); lowercasing is
`Char.toLower` (ASCII case folding, matching the ASCII fragment of Python
`str.lower()` and of SQL ILIKE); whitespace stripping is `Char.isWhitespace`
on both ends, the ASCII fragment of Python `str.strip()`.

SQLAlchemy rows are lists; a SELECT returns rows in table order.  SQL
`ILIKE pattern` (no ESCAPE clause in the source) is embedded by `likeMatch`,
the standard LIKE matcher in which the pattern characters so-called percent
and underscore are wildcards, compared case-insensitively.  Python dicts are
association lists with unique keys, insertion ordered, updated in place.
-/

namespace SealSearch

/-! ## Character-list primitives -/

/-- Lowercase the code points of a string (ASCII case folding, as in the
ASCII fragment of Python `str.lower()` and of SQL ILIKE). -/
def lowerData (s : String) : List Char := s.data.map Char.toLower

/-- Python `str.strip()` on code points: drop whitespace from both ends. -/
def stripData (l : List Char) : List Char :=
  ((l.dropWhile Char.isWhitespace).reverse.dropWhile Char.isWhitespace).reverse

/-- Lexicographic strict order on code-point lists, as Python compares
strings. -/
def charListLt : List Char → List Char → Bool
  | [], [] => false
  | [], _ :: _ => true
  | _ :: _, [] => false
  | a :: as, b :: bs => decide (a < b) || (a == b && charListLt as bs)

/-- Lexicographic weak order on code-point lists, as Python compares
strings. -/
def charListLe : List Char → List Char → Bool
  | [], _ => true
  | _ :: _, [] => false
  | a :: as, b :: bs => decide (a < b) || (a == b && charListLe as bs)

/-- SQL LIKE pattern matching over code points: in the pattern, the percent
sign matches any (possibly empty) sequence and the underscore matches any
single character; every other character matches itself.  The whole string
must be matched.  This embeds the semantics of the ILIKE operator used in
src/app/routers/search.py (both sides already lowercased by the caller). -/
def likeMatch (p : List Char) (s : List Char) : Bool :=
  match p, s with
  | [], [] => true
  | [], _ :: _ => false
  | a :: ps, [] => a == '%' && likeMatch ps []
  | a :: ps, c :: s2 =>
    if a == '%' then likeMatch ps (c :: s2) || likeMatch (a :: ps) s2
    else (a == '_' || a == c) && likeMatch ps s2
termination_by p.length + s.length

/-- Case-insensitive LIKE, as SQLAlchemy `column.ilike(pattern)`: the stored
string is case folded; the pattern handed over by search.py is already
lowercase. -/
def ilikeB (pat : List Char) (s : String) : Bool := likeMatch pat (lowerData s)

/-! ## Data model (src/app/models/category.py) -/

/-- Row of the product_categories table.  The uuid primary key is embedded
as an opaque Nat; timestamps as opaque Nats. -/
structure ProductCategory where
  id : Nat
  name : String
  slug : String
  description : Option String
  requires_seal : Bool
  regulation_code : Option String
  regulation_name : Option String
  regulation_summary : Option String
  seal_types : Option (List String)
  seal_description : Option String
  what_to_do : Option String
  parent_category_id : Option Nat
  created_at : Nat
  updated_at : Nat
deriving Repr, DecidableEq

/-- Row of the product_keywords table. -/
structure ProductKeyword where
  id : Nat
  category_id : Nat
  keyword : String
deriving Repr, DecidableEq

/-- A snapshot of the two tables backing the taxonomy. -/
structure DB where
  categories : List ProductCategory
  keywords : List ProductKeyword
deriving Repr, DecidableEq

/-! ## Response schemas (src/app/schemas) -/

/-- CategorySummary from src/app/schemas/category.py. -/
structure CategorySummary where
  id : Nat
  name : String
  slug : String
  description : Option String
  requires_seal : Bool
  regulation_code : Option String
  parent_category_id : Option Nat
deriving Repr, DecidableEq

/-- Pydantic `CategorySummary.model_validate(cat)`: project the ORM row onto
the summary fields. -/
def CategorySummary.model_validate (c : ProductCategory) : CategorySummary :=
  ⟨c.id, c.name, c.slug, c.description, c.requires_seal, c.regulation_code,
    c.parent_category_id⟩

/-- CategoryDetail from src/app/schemas/category.py; `seal_types` and
`keywords` are plain (never-null) lists in the schema. -/
structure CategoryDetail where
  id : Nat
  name : String
  slug : String
  description : Option String
  requires_seal : Bool
  regulation_code : Option String
  parent_category_id : Option Nat
  regulation_name : Option String
  regulation_summary : Option String
  seal_types : List String
  seal_description : Option String
  what_to_do : Option String
  keywords : List String
  children : List CategorySummary
  parent : Option CategorySummary
  created_at : Nat
  updated_at : Nat
deriving Repr, DecidableEq

/-- SearchResult from src/app/schemas/search.py. -/
structure SearchResult where
  categories : List CategorySummary
  query : String
  total : Nat
deriving Repr, DecidableEq

deriving instance DecidableEq for Except

/-! ## Search engine (src/app/routers/search.py) -/

/-- Rank constants of search.py. -/
def EXACT : Nat := 0

/-- Rank constant STARTS_WITH of search.py. -/
def STARTS_WITH : Nat := 1

/-- Rank constant CONTAINS of search.py. -/
def CONTAINS : Nat := 2

/-- Rank constant NAME_MATCH of search.py. -/
def NAME_MATCH : Nat := 3

/-- Line 26 of search.py: `query_lower = q.strip().lower()`. -/
def normalizeQuery (q : String) : List Char :=
  (stripData q.data).map Char.toLower

/-- Line 27 of search.py: `pattern = f"%{query_lower}%"`.  The normalized
query is interpolated into the LIKE pattern verbatim; wildcard characters it
contains stay active (the source does not escape them). -/
def searchPattern (q : String) : List Char :=
  '%' :: normalizeQuery q ++ ['%']

/-- Lines 32-37: SELECT the keyword rows whose keyword ILIKE-matches the
pattern, each joined (inner join on the foreign key) with its owning
category. -/
def keyword_rows (db : DB) (pat : List Char) :
    List (ProductKeyword × ProductCategory) :=
  db.keywords.filterMap fun kw =>
    if ilikeB pat kw.keyword then
      (db.categories.find? fun c => c.id == kw.category_id).map fun c => (kw, c)
    else none

/-- Lines 52-57: the rank of one keyword hit against the normalized query:
equal gives EXACT, otherwise a prefix gives STARTS_WITH, otherwise
CONTAINS. -/
def keywordRank (query_lower kw_lower : List Char) : Nat :=
  if kw_lower == query_lower then EXACT
  else if query_lower.isPrefixOf kw_lower then STARTS_WITH
  else CONTAINS

/-- Lines 59-62: the dict update
`if cat_id not in keyword_ranks or rank < keyword_ranks[cat_id]`.
The two dicts keyword_ranks and keyword_categories are written in lockstep
under the same guard, so they are embedded as one association list from
category id to (rank, category), insertion ordered like a Python dict. -/
def updateRank (cat_id rank : Nat) (cat : ProductCategory) :
    List (Nat × Nat × ProductCategory) → List (Nat × Nat × ProductCategory)
  | [] => [(cat_id, rank, cat)]
  | e :: rest =>
    if e.1 == cat_id then
      if rank < e.2.1 then (cat_id, rank, cat) :: rest else e :: rest
    else e :: updateRank cat_id rank cat rest

/-- Lines 48-62: the loop over keyword_rows building keyword_ranks and
keyword_categories. -/
def buildKeywordRanks (query_lower : List Char)
    (rows : List (ProductKeyword × ProductCategory)) :
    List (Nat × Nat × ProductCategory) :=
  rows.foldl
    (fun acc r =>
      updateRank r.2.id (keywordRank query_lower (lowerData r.1.keyword)) r.2 acc)
    []

/-- Lines 69-73: SELECT the categories whose name ILIKE-matches the
pattern. -/
def name_rows (db : DB) (pat : List Char) : List ProductCategory :=
  db.categories.filter fun c => ilikeB pat c.name

/-- Python dict assignment `d[k] = v`: overwrite in place if the key exists,
else append. -/
def dictInsert (k : Nat) (v : ProductCategory) :
    List (Nat × ProductCategory) → List (Nat × ProductCategory)
  | [] => [(k, v)]
  | e :: rest => if e.1 == k then (k, v) :: rest else e :: dictInsert k v rest

/-- Lines 75-78: the name_categories dict keyed by category id. -/
def buildNameCategories (rows : List ProductCategory) :
    List (Nat × ProductCategory) :=
  rows.foldl (fun acc c => dictInsert c.id c acc) []

/-- Lines 83-93: iterate over `all_ids = set(keyword_ranks) | set(name_categories)`
and build the (rank, name.lower(), category) triples; ids found in
keyword_ranks take their keyword rank, the rest take NAME_MATCH.  CPython
enumerates the id set in an unspecified (hash-dependent) order; this
embedding enumerates the keyword-dict entries first and then the remaining
name-dict entries, which yields the same multiset of triples. -/
def rankedEntries (kwr : List (Nat × Nat × ProductCategory))
    (nc : List (Nat × ProductCategory)) :
    List (Nat × List Char × ProductCategory) :=
  (kwr.map fun e => (e.2.1, lowerData e.2.2.name, e.2.2))
  ++ ((nc.filter fun e => !(kwr.any fun f => f.1 == e.1)).map
      fun e => (NAME_MATCH, lowerData e.2.name, e.2))

/-- Line 96 sort key `lambda t: (t[0], t[1])`: weak order on (rank, lowered
name), lexicographic, ranks as naturals and names as Python strings. -/
def entryLe (a b : Nat × List Char × ProductCategory) : Bool :=
  decide (a.1 < b.1) || (a.1 == b.1 && charListLe a.2.1 b.2.1)

/-- Lines 26-96 of search.py up to and including the sort: the ranked,
deduplicated, ordered triples for a query.  Python `list.sort` is a stable
sort by the key; `List.mergeSort` with `entryLe` is a stable sort by the
same key. -/
def searchRanked (db : DB) (q : String) :
    List (Nat × List Char × ProductCategory) :=
  let query_lower := normalizeQuery q
  let pat := searchPattern q
  let kwr := buildKeywordRanks query_lower (keyword_rows db pat)
  let nc := buildNameCategories (name_rows db pat)
  (rankedEntries kwr nc).mergeSort entryLe

/-- Message of the FastAPI validation error raised when the query parameter
violates `min_length=2` (q counted in raw characters). -/
def minLengthError : String := "String should have at least 2 characters"

/-- GET /search (search_categories, src/app/routers/search.py).  FastAPI
rejects the request with a validation error when the raw query string has
fewer than 2 characters (`Query(..., min_length=2)`); otherwise the handler
body runs and always returns a SearchResult carrying the original query
string verbatim. -/
def search_categories (db : DB) (q : String) : Except String SearchResult :=
  if q.length < 2 then Except.error minLengthError
  else
    let categories :=
      (searchRanked db q).map fun e => CategorySummary.model_validate e.2.2
    Except.ok ⟨categories, q, categories.length⟩

/-- The search route as an explicit state transformer over the database
snapshot.  The route body performs exactly two database operations (the two
SELECT queries of lines 32-37 and 69-73); a SELECT returns rows and leaves
the store unchanged, which is how each step is embedded here.  No other
statement of the handler touches the session. -/
def search_categoriesST (db : DB) (q : String) :
    Except String SearchResult × DB :=
  if q.length < 2 then (Except.error minLengthError, db)
  else
    let query_lower := normalizeQuery q
    let pat := searchPattern q
    let step1 : List (ProductKeyword × ProductCategory) × DB :=
      (keyword_rows db pat, db)
    let kwr := buildKeywordRanks query_lower step1.1
    let step2 : List ProductCategory × DB := (name_rows step1.2 pat, step1.2)
    let nc := buildNameCategories step2.1
    let ranked := (rankedEntries kwr nc).mergeSort entryLe
    let categories := ranked.map fun e => CategorySummary.model_validate e.2.2
    (Except.ok ⟨categories, q, categories.length⟩, step2.2)

/-! ## Category routes (src/app/routers/categories.py) -/

/-- ORDER BY product_categories.name (line 30 of categories.py).  The
collation under which the database server compares names is configured in
the deployment, not in the source tree.  Modelled from the spec: the name
ordering is case-insensitive, embedded as a stable sort by the lowercased
name under the code-point order. -/
def order_by_name (l : List ProductCategory) : List ProductCategory :=
  l.mergeSort fun a b => charListLe (lowerData a.name) (lowerData b.name)

/-- GET /categories (list_categories, src/app/routers/categories.py).
Each filter is applied only when the corresponding query parameter is
present; a missing parent_id applies no parent filter at all. -/
def list_categories (db : DB) (parent_id : Option Nat)
    (requires_seal : Option Bool) : List CategorySummary :=
  let rows := db.categories
  let rows := match parent_id with
    | none => rows
    | some pid => rows.filter fun c => c.parent_category_id == some pid
  let rows := match requires_seal with
    | none => rows
    | some rs => rows.filter fun c => c.requires_seal == rs
  (order_by_name rows).map CategorySummary.model_validate

/-- GET /categories/slug (get_category, src/app/routers/categories.py).
Returns none for the 404 branch; otherwise builds the CategoryDetail,
with `seal_types=category.seal_types or []` embedded as the Python `or`:
a null or empty stored value becomes the empty list. -/
def get_category (db : DB) (slug : String) : Option CategoryDetail :=
  match db.categories.find? fun c => c.slug == slug with
  | none => none
  | some c =>
    some ⟨c.id, c.name, c.slug, c.description, c.requires_seal,
      c.regulation_code, c.parent_category_id, c.regulation_name,
      c.regulation_summary,
      (match c.seal_types with
        | none => []
        | some l => if l.isEmpty then [] else l),
      c.seal_description, c.what_to_do,
      (db.keywords.filter fun kw => kw.category_id == c.id).map
        fun kw => kw.keyword,
      ((db.categories.filter fun ch => ch.parent_category_id == some c.id).map
        CategorySummary.model_validate),
      (c.parent_category_id.bind fun pid =>
        db.categories.find? fun p => p.id == pid).map
        CategorySummary.model_validate,
      c.created_at, c.updated_at⟩

/-! ## Spec-side notions

The following definitions transcribe the wording of the specification (not
the source); they are used only to state claims against the embedded code. -/

/-- Spec wording: literal substring containment, needle inside haystack. -/
def specContainsSub (needle : List Char) : List Char → Bool
  | [] => needle.isEmpty
  | c :: rest => needle.isPrefixOf (c :: rest) || specContainsSub needle rest

/-- Spec wording: the number of non-whitespace characters of the query. -/
def nonWhitespaceCount (s : String) : Nat :=
  (s.data.filter fun c => !c.isWhitespace).length


/-- The sort key of line 96 as a proposition: rank strictly smaller, or equal
rank and weakly smaller lowercased name. -/
def entryLeP (a b : Nat × List Char × ProductCategory) : Prop :=
  a.1 < b.1 ∨ (a.1 = b.1 ∧ charListLe a.2.1 b.2.1 = true)

/-- Python dict lookup `keyword_ranks[k], keyword_categories[k]`. -/
def rankLookup (k : Nat) (l : List (Nat × Nat × ProductCategory)) :
    Option (Nat × ProductCategory) :=
  (l.find? fun e => e.1 == k).map fun e => e.2

/-- Python dict lookup `name_categories[k]`. -/
def dictLookup (k : Nat) (l : List (Nat × ProductCategory)) :
    Option ProductCategory :=
  (l.find? fun e => e.1 == k).map fun e => e.2

/-- Key view of the keyword_ranks dict. -/
def keysOf (l : List (Nat × Nat × ProductCategory)) : List Nat :=
  l.map fun e => e.1

/-- Key view of the name_categories dict. -/
def nameKeysOf (l : List (Nat × ProductCategory)) : List Nat :=
  l.map fun e => e.1

/-- The ranks that the keyword loop of search.py computes for the rows owned
by category id k: one score per selected row, in row order. -/
def scoresFor (ql : List Char) (k : Nat)
    (rows : List (ProductKeyword × ProductCategory)) : List Nat :=
  (rows.filter fun r => r.2.id == k).map
    fun r => keywordRank ql (lowerData r.1.keyword)

/-- One step of the running minimum kept in keyword_ranks (a strictly
smaller rank replaces the stored one). -/
def stepMin (o : Option Nat) (s : Nat) : Option Nat :=
  match o with
  | none => some s
  | some m => if s < m then some s else some m

/-- Category id credited by the keyword scan: some selected keyword row is
owned by it. -/
def kwMatched (db : DB) (q : String) (k : Nat) : Bool :=
  (keyword_rows db (searchPattern q)).any fun r => r.2.id == k

/-- Category id credited by the name scan: some selected name row has it. -/
def nameMatched (db : DB) (q : String) (k : Nat) : Bool :=
  (name_rows db (searchPattern q)).any fun c => c.id == k

/-- Sample category (spec Scenario A). -/
def catPain : ProductCategory :=
  ⟨1, "OTC Oral Pain Relievers", "otc-oral-pain-relievers", none, true, none,
    none, none, none, none, none, none, 0, 0⟩

/-- Sample category (spec Scenario A). -/
def catSleep : ProductCategory :=
  ⟨2, "OTC Sleep Aids", "otc-sleep-aids", none, true, none, none, none,
    some ["shrink-band"], none, none, none, 0, 0⟩

/-- Sample snapshot (spec Scenario A): keyword tylenol on catPain, keyword
tylenol pm on catSleep. -/
def dbA : DB :=
  ⟨[catPain, catSleep], [⟨10, 1, "tylenol"⟩, ⟨11, 2, "tylenol pm"⟩]⟩

/-- Sample category whose stored seal_types is null. -/
def catCough : ProductCategory :=
  ⟨3, "Cough Syrup", "cough-syrup", none, true, none, none, none, none,
    none, none, none, 0, 0⟩

/-- Sample snapshot with the single keyword ab on catCough. -/
def dbW : DB := ⟨[catCough], [⟨20, 3, "ab"⟩]⟩

/-- Sample root category. -/
def catRoot : ProductCategory :=
  ⟨1, "alpha", "alpha", none, true, none, none, none, none, none, none,
    none, 0, 0⟩

/-- Sample child category of catRoot. -/
def catChild : ProductCategory :=
  ⟨2, "beta", "beta", none, false, none, none, none, none, none, none,
    some 1, 0, 0⟩

/-- Sample snapshot with one root and one child category. -/
def dbRoots : DB := ⟨[catRoot, catChild], []⟩

/-! ## Lemmas about the LIKE matcher -/

theorem likeMatch_percent_any : ∀ s : List Char, likeMatch ['%'] s = true
  | [] => by simp [likeMatch]
  | c :: s2 => by
    simp [likeMatch, likeMatch_percent_any s2]

theorem likeMatch_skip :
    ∀ (t p s : List Char), likeMatch p s = true →
      likeMatch ('%' :: p) (t ++ s) = true
  | [], p, [], h => by simpa [likeMatch] using h
  | [], p, c :: s2, h => by simp [likeMatch, h]
  | c :: t2, p, s, h => by
    have ih := likeMatch_skip t2 p s h
    simp [likeMatch, ih]

theorem likeMatch_selfAppend :
    ∀ (q ys : List Char), likeMatch (q ++ ['%']) (q ++ ys) = true
  | [], ys => by simpa using likeMatch_percent_any ys
  | a :: q2, ys => by
    by_cases ha : a = '%'
    · have ih := likeMatch_selfAppend q2 ys
      have hskip := likeMatch_skip [a] (q2 ++ ['%']) (q2 ++ ys) ih
      subst ha
      simpa using hskip
    · have ih := likeMatch_selfAppend q2 ys
      simp [likeMatch, ha, ih]

/-- A pattern built as percent-query-percent matches the query itself; hence
an exactly-equal keyword always passes the ILIKE filter of search.py. -/
theorem likeMatch_self_pattern (q : List Char) :
    likeMatch ('%' :: q ++ ['%']) q = true := by
  have h := likeMatch_skip [] (q ++ ['%']) (q ++ []) (likeMatch_selfAppend q [])
  simpa using h

/-! ## Lemmas about the comparison functions -/

theorem charListLe_total :
    ∀ a b : List Char, (charListLe a b || charListLe b a) = true
  | [], _ => by simp [charListLe]
  | _ :: _, [] => by simp [charListLe]
  | a :: as, b :: bs => by
    rcases lt_trichotomy a b with h | h | h
    · simp [charListLe, h]
    · subst h
      have ih := charListLe_total as bs
      simp only [charListLe, beq_self_eq_true, Bool.true_and, lt_irrefl,
        decide_eq_false_iff_not, not_false_eq_true]
      simpa using ih
    · simp [charListLe, h]

theorem charListLe_trans :
    ∀ a b c : List Char, charListLe a b = true → charListLe b c = true →
      charListLe a c = true
  | [], _, _, _, _ => by simp [charListLe]
  | _ :: _, [], _, h, _ => by simp [charListLe] at h
  | _ :: _, _ :: _, [], _, h => by simp [charListLe] at h
  | a :: as, b :: bs, c :: cs, h1, h2 => by
    simp only [charListLe, Bool.or_eq_true, Bool.and_eq_true,
      decide_eq_true_eq, beq_iff_eq] at h1 h2 ⊢
    rcases h1 with h1 | ⟨hab, h1⟩
    · rcases h2 with h2 | ⟨hbc, h2⟩
      · exact Or.inl (lt_trans h1 h2)
      · exact Or.inl (by rw [← hbc]; exact h1)
    · rcases h2 with h2 | ⟨hbc, h2⟩
      · exact Or.inl (by rw [hab]; exact h2)
      · exact Or.inr ⟨hab.trans hbc, charListLe_trans as bs cs h1 h2⟩

theorem entryLe_iff (a b : Nat × List Char × ProductCategory) :
    entryLe a b = true ↔ entryLeP a b := by
  simp [entryLe, entryLeP]

theorem entryLe_total (a b : Nat × List Char × ProductCategory) :
    (entryLe a b || entryLe b a) = true := by
  simp only [entryLe, Bool.or_eq_true, Bool.and_eq_true, decide_eq_true_eq,
    beq_iff_eq]
  rcases Nat.lt_trichotomy a.1 b.1 with h | h | h
  · exact Or.inl (Or.inl h)
  · have := charListLe_total a.2.1 b.2.1
    simp only [Bool.or_eq_true] at this
    rcases this with hc | hc
    · exact Or.inl (Or.inr ⟨h, hc⟩)
    · exact Or.inr (Or.inr ⟨h.symm, hc⟩)
  · exact Or.inr (Or.inl h)

theorem entryLe_trans (a b c : Nat × List Char × ProductCategory)
    (h1 : entryLe a b = true) (h2 : entryLe b c = true) :
    entryLe a c = true := by
  simp only [entryLe, Bool.or_eq_true, Bool.and_eq_true, decide_eq_true_eq,
    beq_iff_eq] at h1 h2 ⊢
  rcases h1 with h1 | ⟨hab, h1⟩
  · rcases h2 with h2 | ⟨hbc, h2⟩
    · exact Or.inl (Nat.lt_trans h1 h2)
    · exact Or.inl (by rw [← hbc]; exact h1)
  · rcases h2 with h2 | ⟨hbc, h2⟩
    · exact Or.inl (by rw [hab]; exact h2)
    · exact Or.inr ⟨hab.trans hbc, charListLe_trans _ _ _ h1 h2⟩


/-! ## Lemmas about the keyword_ranks dict -/

theorem rankLookup_nil (k : Nat) : rankLookup k [] = none := rfl

theorem rankLookup_cons (k : Nat) (e : Nat × Nat × ProductCategory)
    (rest : List (Nat × Nat × ProductCategory)) :
    rankLookup k (e :: rest) =
      if e.1 = k then some e.2 else rankLookup k rest := by
  by_cases h : e.1 = k
  · rw [if_pos h, rankLookup, List.find?_cons_of_pos _ (by simp [h])]
    rfl
  · rw [if_neg h, rankLookup, List.find?_cons_of_neg _ (by simp [h])]
    rfl

theorem updateRank_cons_hit (cat_id rank : Nat) (cat : ProductCategory)
    (e : Nat × Nat × ProductCategory) (rest : List (Nat × Nat × ProductCategory))
    (he : e.1 = cat_id) :
    updateRank cat_id rank cat (e :: rest) =
      if rank < e.2.1 then (cat_id, rank, cat) :: rest else e :: rest := by
  simp [updateRank, he]

theorem updateRank_cons_miss (cat_id rank : Nat) (cat : ProductCategory)
    (e : Nat × Nat × ProductCategory) (rest : List (Nat × Nat × ProductCategory))
    (he : e.1 ≠ cat_id) :
    updateRank cat_id rank cat (e :: rest) =
      e :: updateRank cat_id rank cat rest := by
  simp [updateRank, he]

theorem rankLookup_updateRank (k cat_id rank : Nat) (cat : ProductCategory) :
    ∀ acc, rankLookup k (updateRank cat_id rank cat acc) =
      if k = cat_id then
        match rankLookup k acc with
        | none => some (rank, cat)
        | some p => if rank < p.1 then some (rank, cat) else some p
      else rankLookup k acc
  | [] => by
    show rankLookup k [(cat_id, rank, cat)] = _
    rw [rankLookup_cons]
    by_cases hk : k = cat_id
    · rw [if_pos hk.symm, if_pos hk]
      rfl
    · rw [if_neg (Ne.symm hk), if_neg hk]
  | e :: rest => by
    by_cases he : e.1 = cat_id
    · rw [updateRank_cons_hit cat_id rank cat e rest he]
      by_cases hk : k = cat_id
      · have hek : e.1 = k := by rw [he, hk]
        by_cases hr : rank < e.2.1
        · rw [if_pos hr, rankLookup_cons, if_pos hk.symm, if_pos hk,
            rankLookup_cons, if_pos hek]
          simp [hr]
        · rw [if_neg hr, rankLookup_cons, if_pos hek, if_pos hk]
          simp [hr]
      · have hek : e.1 ≠ k := fun h => hk ((h.symm.trans he))
        by_cases hr : rank < e.2.1
        · rw [if_pos hr, rankLookup_cons, if_neg (fun hc => hk hc.symm),
            if_neg hk, rankLookup_cons, if_neg hek]
        · rw [if_neg hr, rankLookup_cons, if_neg hek, if_neg hk]
    · rw [updateRank_cons_miss cat_id rank cat e rest he]
      rw [rankLookup_cons]
      by_cases hek : e.1 = k
      · have hk : k ≠ cat_id := fun h => he (hek.trans h)
        rw [if_pos hek, if_neg hk, rankLookup_cons, if_pos hek]
      · rw [if_neg hek, rankLookup_updateRank k cat_id rank cat rest,
          rankLookup_cons, if_neg hek]

theorem rankLookup_build (ql : List Char) :
    ∀ (rows : List (ProductKeyword × ProductCategory))
      (acc : List (Nat × Nat × ProductCategory)) (k : Nat),
      (rankLookup k (rows.foldl (fun a r =>
          updateRank r.2.id (keywordRank ql (lowerData r.1.keyword)) r.2 a)
          acc)).map (fun p => p.1) =
      (scoresFor ql k rows).foldl stepMin
        ((rankLookup k acc).map fun p => p.1)
  | [], acc, k => by simp [scoresFor]
  | r :: rows, acc, k => by
    have ih := rankLookup_build ql rows
      (updateRank r.2.id (keywordRank ql (lowerData r.1.keyword)) r.2 acc) k
    by_cases hid : r.2.id = k
    · have hsc : scoresFor ql k (r :: rows) =
          keywordRank ql (lowerData r.1.keyword) :: scoresFor ql k rows := by
        simp [scoresFor, hid]
      have hupd : (rankLookup k (updateRank r.2.id
          (keywordRank ql (lowerData r.1.keyword)) r.2 acc)).map (fun p => p.1) =
          stepMin ((rankLookup k acc).map fun p => p.1)
            (keywordRank ql (lowerData r.1.keyword)) := by
        rw [rankLookup_updateRank, if_pos hid.symm]
        cases h : rankLookup k acc with
        | none => simp [stepMin]
        | some p =>
          by_cases hr : keywordRank ql (lowerData r.1.keyword) < p.1
          · simp [hr, stepMin]
          · simp [hr, stepMin]
      rw [List.foldl_cons, ih, hupd, hsc, List.foldl_cons]
    · have hsc : scoresFor ql k (r :: rows) = scoresFor ql k rows := by
        simp [scoresFor, hid]
      have hupd : rankLookup k (updateRank r.2.id
          (keywordRank ql (lowerData r.1.keyword)) r.2 acc) =
          rankLookup k acc := by
        rw [rankLookup_updateRank, if_neg (fun h => hid h.symm)]
      rw [List.foldl_cons, ih, hupd, hsc]

theorem foldl_stepMin_some :
    ∀ (l : List Nat) (m : Nat), ∃ r, l.foldl stepMin (some m) = some r
  | [], m => ⟨m, rfl⟩
  | s :: l, m => by
    simp only [List.foldl_cons, stepMin]
    by_cases h : s < m
    · simpa [h] using foldl_stepMin_some l s
    · simpa [h] using foldl_stepMin_some l m

theorem foldl_stepMin_min :
    ∀ (l : List Nat) (m r : Nat), l.foldl stepMin (some m) = some r →
      (r = m ∨ r ∈ l) ∧ r ≤ m ∧ ∀ s ∈ l, r ≤ s
  | [], m, r, h => by
    simp only [List.foldl_nil, Option.some.injEq] at h
    subst h
    exact ⟨Or.inl rfl, le_refl m, by simp⟩
  | s :: l, m, r, h => by
    simp only [List.foldl_cons, stepMin] at h
    by_cases hs : s < m
    · rw [if_pos hs] at h
      obtain ⟨hmem, hle, hall⟩ := foldl_stepMin_min l s r h
      refine ⟨?_, ?_, ?_⟩
      · rcases hmem with h1 | h1
        · exact Or.inr (by simp [h1])
        · exact Or.inr (by simp [h1])
      · exact le_trans hle (le_of_lt hs)
      · intro t ht
        rcases List.mem_cons.mp ht with h1 | h1
        · exact h1 ▸ hle
        · exact hall t h1
    · rw [if_neg hs] at h
      obtain ⟨hmem, hle, hall⟩ := foldl_stepMin_min l m r h
      refine ⟨?_, ?_, ?_⟩
      · rcases hmem with h1 | h1
        · exact Or.inl h1
        · exact Or.inr (by simp [h1])
      · exact hle
      · intro t ht
        rcases List.mem_cons.mp ht with h1 | h1
        · subst h1
          exact le_trans hle (Nat.le_of_not_lt hs)
        · exact hall t h1

theorem foldl_stepMin_none_min (l : List Nat) (r : Nat)
    (h : l.foldl stepMin none = some r) : r ∈ l ∧ ∀ s ∈ l, r ≤ s := by
  cases l with
  | nil => simp at h
  | cons s l =>
    simp only [List.foldl_cons, stepMin] at h
    obtain ⟨hmem, hle, hall⟩ := foldl_stepMin_min l s r h
    refine ⟨?_, ?_⟩
    · rcases hmem with h1 | h1
      · simp [h1]
      · simp [h1]
    · intro t ht
      rcases List.mem_cons.mp ht with h1 | h1
      · exact h1 ▸ hle
      · exact hall t h1

theorem foldl_stepMin_none_eq_none :
    ∀ l : List Nat, l.foldl stepMin none = none ↔ l = []
  | [] => by simp
  | s :: l => by
    simp only [List.foldl_cons, stepMin]
    obtain ⟨r, hr⟩ := foldl_stepMin_some l s
    simp [hr]


/-! ## Key-set lemmas for the two dicts -/

theorem keysOf_nil : keysOf [] = [] := rfl

theorem keysOf_cons (e : Nat × Nat × ProductCategory)
    (l : List (Nat × Nat × ProductCategory)) :
    keysOf (e :: l) = e.1 :: keysOf l := rfl

theorem rankLookup_eq_none_iff (k : Nat) :
    ∀ l, rankLookup k l = none ↔ k ∉ keysOf l
  | [] => by simp [rankLookup, keysOf]
  | e :: rest => by
    rw [rankLookup_cons, keysOf_cons]
    by_cases h : e.1 = k
    · simp [h]
    · simp only [if_neg h, List.mem_cons, not_or,
        rankLookup_eq_none_iff k rest]
      constructor
      · intro hr
        exact ⟨fun hc => h hc.symm, hr⟩
      · intro hr
        exact hr.2

theorem rankLookup_of_mem :
    ∀ (l : List (Nat × Nat × ProductCategory)), (keysOf l).Nodup →
      ∀ e ∈ l, rankLookup e.1 l = some e.2
  | [], _, e, he => absurd he (List.not_mem_nil e)
  | a :: rest, hnd, e, he => by
    rcases List.mem_cons.mp he with h1 | h1
    · subst h1
      rw [rankLookup_cons, if_pos rfl]
    · have hne : a.1 ≠ e.1 := by
        rw [keysOf_cons, List.nodup_cons] at hnd
        exact fun hc => hnd.1 (hc ▸ List.mem_map_of_mem (fun x => x.1) h1)
      rw [rankLookup_cons, if_neg hne]
      exact rankLookup_of_mem rest
        (by rw [keysOf_cons, List.nodup_cons] at hnd; exact hnd.2) e h1

theorem keysOf_updateRank_mem (cat_id rank : Nat) (cat : ProductCategory) :
    ∀ acc, cat_id ∈ keysOf acc →
      keysOf (updateRank cat_id rank cat acc) = keysOf acc
  | [], h => absurd h (by simp [keysOf])
  | e :: rest, h => by
    by_cases he : e.1 = cat_id
    · rw [updateRank_cons_hit _ _ _ _ _ he]
      by_cases hr : rank < e.2.1
      · rw [if_pos hr, keysOf_cons, keysOf_cons, he]
      · rw [if_neg hr]
    · rw [updateRank_cons_miss _ _ _ _ _ he]
      have hmem : cat_id ∈ keysOf rest := by
        rw [keysOf_cons] at h
        rcases List.mem_cons.mp h with h1 | h1
        · exact absurd h1.symm he
        · exact h1
      rw [keysOf_cons, keysOf_cons,
        keysOf_updateRank_mem cat_id rank cat rest hmem]

theorem keysOf_updateRank_not_mem (cat_id rank : Nat) (cat : ProductCategory) :
    ∀ acc, cat_id ∉ keysOf acc →
      keysOf (updateRank cat_id rank cat acc) = keysOf acc ++ [cat_id]
  | [], _ => rfl
  | e :: rest, h => by
    rw [keysOf_cons] at h
    have he : e.1 ≠ cat_id := fun hc => h (hc ▸ List.mem_cons_self _ _)
    have hrest : cat_id ∉ keysOf rest := fun hc => h (List.mem_cons_of_mem _ hc)
    rw [updateRank_cons_miss _ _ _ _ _ he, keysOf_cons, keysOf_cons,
      keysOf_updateRank_not_mem cat_id rank cat rest hrest, List.cons_append]

theorem keysOf_updateRank_nodup (cat_id rank : Nat) (cat : ProductCategory)
    (acc : List (Nat × Nat × ProductCategory)) (h : (keysOf acc).Nodup) :
    (keysOf (updateRank cat_id rank cat acc)).Nodup := by
  by_cases hm : cat_id ∈ keysOf acc
  · rw [keysOf_updateRank_mem _ _ _ _ hm]
    exact h
  · rw [keysOf_updateRank_not_mem _ _ _ _ hm]
    simp [List.nodup_append, h, hm]

theorem keysOf_build_nodup (ql : List Char)
    (rows : List (ProductKeyword × ProductCategory)) :
    (keysOf (buildKeywordRanks ql rows)).Nodup := by
  suffices h : ∀ (rows : List (ProductKeyword × ProductCategory)) acc,
      (keysOf acc).Nodup →
      (keysOf (rows.foldl (fun a r =>
        updateRank r.2.id (keywordRank ql (lowerData r.1.keyword)) r.2 a)
        acc)).Nodup by
    exact h rows [] (by simp [keysOf])
  intro rows
  induction rows with
  | nil => exact fun acc h => h
  | cons r rows ih =>
    exact fun acc h => ih _ (keysOf_updateRank_nodup _ _ _ _ h)

theorem updateRank_id_inv (cat_id rank : Nat) (cat : ProductCategory)
    (hcat : cat_id = cat.id) :
    ∀ acc, (∀ e ∈ acc, e.1 = e.2.2.id) →
      ∀ e ∈ updateRank cat_id rank cat acc, e.1 = e.2.2.id
  | [], _, e, he => by
    have he2 : e ∈ [(cat_id, rank, cat)] := he
    rcases List.mem_cons.mp he2 with h1 | h1
    · subst h1; exact hcat
    · exact absurd h1 (List.not_mem_nil e)
  | a :: rest, h, e, he => by
    by_cases ha : a.1 = cat_id
    · rw [updateRank_cons_hit _ _ _ _ _ ha] at he
      by_cases hr : rank < a.2.1
      · rw [if_pos hr] at he
        rcases List.mem_cons.mp he with h1 | h1
        · subst h1; exact hcat
        · exact h _ (List.mem_cons_of_mem _ h1)
      · rw [if_neg hr] at he
        exact h _ he
    · rw [updateRank_cons_miss _ _ _ _ _ ha] at he
      rcases List.mem_cons.mp he with h1 | h1
      · subst h1
        exact h _ (List.mem_cons_self _ _)
      · exact updateRank_id_inv cat_id rank cat hcat rest
          (fun x hx => h x (List.mem_cons_of_mem _ hx)) e h1

theorem build_id_inv (ql : List Char)
    (rows : List (ProductKeyword × ProductCategory)) :
    ∀ e ∈ buildKeywordRanks ql rows, e.1 = e.2.2.id := by
  suffices h : ∀ (rows : List (ProductKeyword × ProductCategory)) acc,
      (∀ e ∈ acc, e.1 = e.2.2.id) →
      ∀ e ∈ rows.foldl (fun a r =>
        updateRank r.2.id (keywordRank ql (lowerData r.1.keyword)) r.2 a) acc,
        e.1 = e.2.2.id by
    exact h rows [] (by simp)
  intro rows
  induction rows with
  | nil => exact fun acc h => h
  | cons r rows ih =>
    exact fun acc h => ih _ (updateRank_id_inv _ _ _ rfl _ h)


/-! ## Lemmas about the name_categories dict -/

theorem nameKeysOf_cons (e : Nat × ProductCategory)
    (l : List (Nat × ProductCategory)) :
    nameKeysOf (e :: l) = e.1 :: nameKeysOf l := rfl

theorem dictLookup_cons (k : Nat) (e : Nat × ProductCategory)
    (rest : List (Nat × ProductCategory)) :
    dictLookup k (e :: rest) =
      if e.1 = k then some e.2 else dictLookup k rest := by
  by_cases h : e.1 = k
  · rw [if_pos h, dictLookup, List.find?_cons_of_pos _ (by simp [h])]
    rfl
  · rw [if_neg h, dictLookup, List.find?_cons_of_neg _ (by simp [h])]
    rfl

theorem dictInsert_cons_hit (k : Nat) (v : ProductCategory)
    (e : Nat × ProductCategory) (rest : List (Nat × ProductCategory))
    (he : e.1 = k) :
    dictInsert k v (e :: rest) = (k, v) :: rest := by
  simp [dictInsert, he]

theorem dictInsert_cons_miss (k : Nat) (v : ProductCategory)
    (e : Nat × ProductCategory) (rest : List (Nat × ProductCategory))
    (he : e.1 ≠ k) :
    dictInsert k v (e :: rest) = e :: dictInsert k v rest := by
  simp [dictInsert, he]

theorem dictLookup_dictInsert (k id2 : Nat) (v : ProductCategory) :
    ∀ acc, dictLookup k (dictInsert id2 v acc) =
      if k = id2 then some v else dictLookup k acc
  | [] => by
    have h : dictInsert id2 v [] = [(id2, v)] := rfl
    rw [h, dictLookup_cons]
    by_cases hk : k = id2
    · rw [if_pos hk.symm, if_pos hk]
    · rw [if_neg (Ne.symm hk), if_neg hk]
  | e :: rest => by
    by_cases he : e.1 = id2
    · rw [dictInsert_cons_hit _ _ _ _ he, dictLookup_cons, dictLookup_cons]
      by_cases hk : k = id2
      · rw [if_pos hk.symm, if_pos hk]
      · rw [if_neg (Ne.symm hk), if_neg hk,
          if_neg (fun hc => hk (hc.symm.trans he))]
    · rw [dictInsert_cons_miss _ _ _ _ he, dictLookup_cons,
        dictLookup_dictInsert k id2 v rest, dictLookup_cons]
      by_cases hk : k = id2
      · have hek : e.1 ≠ k := fun hc => he (hc.trans hk)
        rw [if_neg hek, if_pos hk, if_pos hk]
      · rw [if_neg hk, if_neg hk]

theorem nameKeysOf_dictInsert_mem (k : Nat) (v : ProductCategory) :
    ∀ acc, k ∈ nameKeysOf acc →
      nameKeysOf (dictInsert k v acc) = nameKeysOf acc
  | [], h => absurd h (by simp [nameKeysOf])
  | e :: rest, h => by
    by_cases he : e.1 = k
    · rw [dictInsert_cons_hit _ _ _ _ he, nameKeysOf_cons, nameKeysOf_cons, he]
    · rw [nameKeysOf_cons] at h
      have hmem : k ∈ nameKeysOf rest := by
        rcases List.mem_cons.mp h with h1 | h1
        · exact absurd h1.symm he
        · exact h1
      rw [dictInsert_cons_miss _ _ _ _ he, nameKeysOf_cons, nameKeysOf_cons,
        nameKeysOf_dictInsert_mem k v rest hmem]

theorem nameKeysOf_dictInsert_not_mem (k : Nat) (v : ProductCategory) :
    ∀ acc, k ∉ nameKeysOf acc →
      nameKeysOf (dictInsert k v acc) = nameKeysOf acc ++ [k]
  | [], _ => rfl
  | e :: rest, h => by
    rw [nameKeysOf_cons] at h
    have he : e.1 ≠ k := fun hc => h (hc ▸ List.mem_cons_self _ _)
    have hrest : k ∉ nameKeysOf rest := fun hc => h (List.mem_cons_of_mem _ hc)
    rw [dictInsert_cons_miss _ _ _ _ he, nameKeysOf_cons, nameKeysOf_cons,
      nameKeysOf_dictInsert_not_mem k v rest hrest, List.cons_append]

theorem nameKeysOf_dictInsert_nodup (k : Nat) (v : ProductCategory)
    (acc : List (Nat × ProductCategory)) (h : (nameKeysOf acc).Nodup) :
    (nameKeysOf (dictInsert k v acc)).Nodup := by
  by_cases hm : k ∈ nameKeysOf acc
  · rw [nameKeysOf_dictInsert_mem _ _ _ hm]
    exact h
  · rw [nameKeysOf_dictInsert_not_mem _ _ _ hm]
    simp [List.nodup_append, h, hm]

theorem nameKeysOf_build_nodup (rows : List ProductCategory) :
    (nameKeysOf (buildNameCategories rows)).Nodup := by
  suffices h : ∀ (rows : List ProductCategory) acc, (nameKeysOf acc).Nodup →
      (nameKeysOf (rows.foldl (fun a c => dictInsert c.id c a) acc)).Nodup by
    exact h rows [] (by simp [nameKeysOf])
  intro rows
  induction rows with
  | nil => exact fun acc h => h
  | cons c rows ih =>
    exact fun acc h => ih _ (nameKeysOf_dictInsert_nodup _ _ _ h)

theorem dictInsert_id_inv (k : Nat) (v : ProductCategory) (hkv : k = v.id) :
    ∀ acc, (∀ e ∈ acc, e.1 = e.2.id) →
      ∀ e ∈ dictInsert k v acc, e.1 = e.2.id
  | [], _, e, he => by
    have he2 : e ∈ [(k, v)] := he
    rcases List.mem_cons.mp he2 with h1 | h1
    · subst h1; exact hkv
    · exact absurd h1 (List.not_mem_nil e)
  | a :: rest, h, e, he => by
    by_cases ha : a.1 = k
    · rw [dictInsert_cons_hit _ _ _ _ ha] at he
      rcases List.mem_cons.mp he with h1 | h1
      · subst h1; exact hkv
      · exact h _ (List.mem_cons_of_mem _ h1)
    · rw [dictInsert_cons_miss _ _ _ _ ha] at he
      rcases List.mem_cons.mp he with h1 | h1
      · subst h1
        exact h _ (List.mem_cons_self _ _)
      · exact dictInsert_id_inv k v hkv rest
          (fun x hx => h x (List.mem_cons_of_mem _ hx)) e h1

theorem buildName_id_inv (rows : List ProductCategory) :
    ∀ e ∈ buildNameCategories rows, e.1 = e.2.id := by
  suffices h : ∀ (rows : List ProductCategory) acc,
      (∀ e ∈ acc, e.1 = e.2.id) →
      ∀ e ∈ rows.foldl (fun a c => dictInsert c.id c a) acc, e.1 = e.2.id by
    exact h rows [] (by simp)
  intro rows
  induction rows with
  | nil => exact fun acc h => h
  | cons c rows ih =>
    exact fun acc h => ih _ (dictInsert_id_inv _ _ rfl _ h)

theorem dictLookup_build_isSome (k : Nat) :
    ∀ (rows : List ProductCategory) (acc : List (Nat × ProductCategory)),
      (dictLookup k (rows.foldl (fun a c => dictInsert c.id c a) acc)).isSome =
        (rows.any (fun c => c.id == k) || (dictLookup k acc).isSome)
  | [], acc => by simp
  | c :: rows, acc => by
    rw [List.foldl_cons, dictLookup_build_isSome k rows, List.any_cons]
    by_cases hk : k = c.id
    · rw [dictLookup_dictInsert, if_pos hk]
      simp [hk]
    · rw [dictLookup_dictInsert, if_neg hk]
      have hck : (c.id == k) = false := beq_false_of_ne fun hc => hk hc.symm
      simp [hck]

theorem nameKeysOf_mem_iff (k : Nat) (l : List (Nat × ProductCategory)) :
    k ∈ nameKeysOf l ↔ (dictLookup k l).isSome := by
  induction l with
  | nil => simp [nameKeysOf, dictLookup]
  | cons e rest ih =>
    rw [nameKeysOf_cons, dictLookup_cons]
    by_cases h : e.1 = k
    · simp [h]
    · have hck : k ≠ e.1 := fun hc => h hc.symm
      simp [h, hck, ih]


/-! ## Keyword-rank dict: membership and minimality -/

theorem rankLookup_buildKeywordRanks_fst (ql : List Char)
    (rows : List (ProductKeyword × ProductCategory)) (k : Nat) :
    (rankLookup k (buildKeywordRanks ql rows)).map (fun p => p.1) =
      (scoresFor ql k rows).foldl stepMin none := by
  have h := rankLookup_build ql rows [] k
  simpa using h

theorem rankLookup_build_isSome (ql : List Char)
    (rows : List (ProductKeyword × ProductCategory)) (k : Nat) :
    (rankLookup k (buildKeywordRanks ql rows)).isSome =
      rows.any fun r => r.2.id == k := by
  rcases hl : rankLookup k (buildKeywordRanks ql rows) with _ | p
  · have h := rankLookup_buildKeywordRanks_fst ql rows k
    rw [hl] at h
    simp only [Option.map_none'] at h
    have hsc : scoresFor ql k rows = [] :=
      (foldl_stepMin_none_eq_none _).mp h.symm
    rw [scoresFor] at hsc
    have hfil := List.map_eq_nil_iff.mp hsc
    have hall := List.filter_eq_nil_iff.mp hfil
    exact (List.any_eq_false.mpr hall).symm
  · have h := rankLookup_buildKeywordRanks_fst ql rows k
    rw [hl] at h
    have hne : scoresFor ql k rows ≠ [] := by
      intro hcon
      rw [hcon] at h
      simp at h
    have hfil : (rows.filter fun r => r.2.id == k) ≠ [] := by
      intro hcon
      exact hne (by rw [scoresFor, hcon]; rfl)
    have hex : ∃ r ∈ rows, (r.2.id == k) = true := by
      by_contra hcon
      push_neg at hcon
      exact hfil (List.filter_eq_nil_iff.mpr (by simpa using hcon))
    rw [List.any_eq_true.mpr hex]
    rfl

theorem rankLookup_min (ql : List Char)
    (rows : List (ProductKeyword × ProductCategory)) (k r : Nat)
    (c : ProductCategory)
    (h : rankLookup k (buildKeywordRanks ql rows) = some (r, c)) :
    r ∈ scoresFor ql k rows ∧ ∀ s ∈ scoresFor ql k rows, r ≤ s := by
  have hf := rankLookup_buildKeywordRanks_fst ql rows k
  rw [h] at hf
  exact foldl_stepMin_none_min _ _ hf.symm

/-! ## Lemmas about the merged candidate triples -/

theorem keysOf_mem_iff_any (k : Nat)
    (l : List (Nat × Nat × ProductCategory)) :
    k ∈ keysOf l ↔ (l.any fun f => f.1 == k) = true := by
  rw [List.any_eq_true, keysOf]
  constructor
  · intro h
    obtain ⟨e, he, hk⟩ := List.mem_map.mp h
    exact ⟨e, he, by simp [hk]⟩
  · intro ⟨e, he, hk⟩
    exact List.mem_map.mpr ⟨e, he, by simpa using hk⟩

theorem rankedEntries_name (kwr : List (Nat × Nat × ProductCategory))
    (nc : List (Nat × ProductCategory)) :
    ∀ e ∈ rankedEntries kwr nc, e.2.1 = lowerData e.2.2.name := by
  intro e he
  rcases List.mem_append.mp he with h | h
  · obtain ⟨f, _, hf⟩ := List.mem_map.mp h
    rw [← hf]
  · obtain ⟨f, _, hf⟩ := List.mem_map.mp h
    rw [← hf]

theorem rankedEntries_ids_nodup (kwr : List (Nat × Nat × ProductCategory))
    (nc : List (Nat × ProductCategory))
    (hkn : (keysOf kwr).Nodup) (hnn : (nameKeysOf nc).Nodup)
    (hki : ∀ e ∈ kwr, e.1 = e.2.2.id) (hni : ∀ e ∈ nc, e.1 = e.2.id) :
    ((rankedEntries kwr nc).map fun e => e.2.2.id).Nodup := by
  rw [rankedEntries, List.map_append, List.map_map, List.map_map]
  have hA : (kwr.map ((fun e => e.2.2.id) ∘
      fun e => (e.2.1, lowerData e.2.2.name, e.2.2))) = keysOf kwr := by
    rw [keysOf]
    exact List.map_congr_left fun e he => (hki e he).symm
  have hB : ((nc.filter fun e => !(kwr.any fun f => f.1 == e.1)).map
      ((fun e => e.2.2.id) ∘ fun e => (NAME_MATCH, lowerData e.2.name, e.2))) =
      nameKeysOf (nc.filter fun e => !(kwr.any fun f => f.1 == e.1)) := by
    rw [nameKeysOf]
    exact List.map_congr_left fun e he =>
      (hni e (List.mem_of_mem_filter he)).symm
  rw [hA, hB]
  have hBsub : nameKeysOf (nc.filter fun e => !(kwr.any fun f => f.1 == e.1))
      |>.Sublist (nameKeysOf nc) := List.Sublist.map _ (List.filter_sublist nc)
  refine List.Nodup.append hkn (hBsub.nodup hnn) ?_
  intro k hk1 hk2
  rw [nameKeysOf] at hk2
  obtain ⟨e, he, hek⟩ := List.mem_map.mp hk2
  have hfil := List.of_mem_filter he
  rw [Bool.not_eq_eq_eq_not] at hfil
  have : (kwr.any fun f => f.1 == e.1) = false := by simpa using hfil
  rw [hek] at this
  exact absurd ((keysOf_mem_iff_any k kwr).mp hk1) (by simp [this])

theorem rankedEntries_mem_iff (kwr : List (Nat × Nat × ProductCategory))
    (nc : List (Nat × ProductCategory))
    (hki : ∀ e ∈ kwr, e.1 = e.2.2.id) (hni : ∀ e ∈ nc, e.1 = e.2.id)
    (k : Nat) :
    (∃ e ∈ rankedEntries kwr nc, e.2.2.id = k) ↔
      k ∈ keysOf kwr ∨ k ∈ nameKeysOf nc := by
  constructor
  · intro ⟨e, he, hek⟩
    rcases List.mem_append.mp he with h | h
    · obtain ⟨f, hf, hfe⟩ := List.mem_map.mp h
      left
      rw [keysOf]
      refine List.mem_map.mpr ⟨f, hf, ?_⟩
      rw [hki f hf]
      rw [← hfe] at hek
      exact hek
    · obtain ⟨f, hf, hfe⟩ := List.mem_map.mp h
      right
      rw [nameKeysOf]
      refine List.mem_map.mpr ⟨f, List.mem_of_mem_filter hf, ?_⟩
      rw [hni f (List.mem_of_mem_filter hf)]
      rw [← hfe] at hek
      exact hek
  · intro h
    by_cases hkw : k ∈ keysOf kwr
    · rw [keysOf] at hkw
      obtain ⟨f, hf, hfk⟩ := List.mem_map.mp hkw
      refine ⟨(f.2.1, lowerData f.2.2.name, f.2.2), ?_, ?_⟩
      · exact List.mem_append.mpr (Or.inl (List.mem_map.mpr ⟨f, hf, rfl⟩))
      · rw [← hki f hf]
        exact hfk
    · rcases h with h | h
      · exact absurd h hkw
      · rw [nameKeysOf] at h
        obtain ⟨f, hf, hfk⟩ := List.mem_map.mp h
        have hpass : (!(kwr.any fun g => g.1 == f.1)) = true := by
          have : (kwr.any fun g => g.1 == f.1) = false := by
            by_contra hcon
            rw [Bool.not_eq_false] at hcon
            exact hkw (hfk ▸ (keysOf_mem_iff_any f.1 kwr).mpr hcon)
          simp [this]
        refine ⟨(NAME_MATCH, lowerData f.2.name, f.2), ?_, ?_⟩
        · refine List.mem_append.mpr (Or.inr (List.mem_map.mpr ⟨f, ?_, rfl⟩))
          exact List.mem_filter.mpr ⟨hf, hpass⟩
        · rw [← hni f hf]
          exact hfk

theorem rankedEntries_rank (kwr : List (Nat × Nat × ProductCategory))
    (nc : List (Nat × ProductCategory))
    (hkn : (keysOf kwr).Nodup) (hki : ∀ e ∈ kwr, e.1 = e.2.2.id)
    (hni : ∀ e ∈ nc, e.1 = e.2.id) :
    ∀ e ∈ rankedEntries kwr nc,
      (∀ p, rankLookup e.2.2.id kwr = some p → e.1 = p.1) ∧
      (rankLookup e.2.2.id kwr = none → e.1 = NAME_MATCH) := by
  intro e he
  rcases List.mem_append.mp he with h | h
  · obtain ⟨f, hf, hfe⟩ := List.mem_map.mp h
    have hlk : rankLookup f.1 kwr = some f.2 := rankLookup_of_mem kwr hkn f hf
    have hid : e.2.2.id = f.1 := by
      rw [← hfe, ← hki f hf]
    constructor
    · intro p hp
      rw [hid, hlk] at hp
      have hp2 := Option.some.inj hp
      rw [← hfe, ← hp2]
    · intro hp
      rw [hid, hlk] at hp
      exact absurd hp (by simp)
  · obtain ⟨f, hf, hfe⟩ := List.mem_map.mp h
    have hid : e.2.2.id = f.1 := by
      rw [← hfe, ← hni f (List.mem_of_mem_filter hf)]
    have hfil := List.of_mem_filter hf
    have hany : (kwr.any fun g => g.1 == f.1) = false := by
      rw [Bool.not_eq_eq_eq_not] at hfil
      simpa using hfil
    have hnone : rankLookup e.2.2.id kwr = none := by
      rw [hid, rankLookup_eq_none_iff]
      intro hc
      have := (keysOf_mem_iff_any f.1 kwr).mp hc
      rw [this] at hany
      exact absurd hany (by simp)
    constructor
    · intro p hp
      rw [hnone] at hp
      exact absurd hp (by simp)
    · intro _
      rw [← hfe]


/-! ## Lemmas about searchRanked -/

theorem searchRanked_eq (db : DB) (q : String) :
    searchRanked db q =
      (rankedEntries
        (buildKeywordRanks (normalizeQuery q)
          (keyword_rows db (searchPattern q)))
        (buildNameCategories (name_rows db (searchPattern q)))).mergeSort
        entryLe := rfl

theorem searchRanked_perm (db : DB) (q : String) :
    List.Perm (searchRanked db q)
      (rankedEntries
        (buildKeywordRanks (normalizeQuery q)
          (keyword_rows db (searchPattern q)))
        (buildNameCategories (name_rows db (searchPattern q)))) := by
  rw [searchRanked_eq]
  exact List.mergeSort_perm _ _

theorem searchRanked_sorted (db : DB) (q : String) :
    List.Pairwise (fun a b => entryLe a b = true) (searchRanked db q) := by
  rw [searchRanked_eq]
  exact List.sorted_mergeSort entryLe_trans entryLe_total _

theorem searchRanked_ids_nodup (db : DB) (q : String) :
    ((searchRanked db q).map fun e => e.2.2.id).Nodup := by
  have hperm := (searchRanked_perm db q).map fun e => e.2.2.id
  exact hperm.nodup_iff.mpr
    (rankedEntries_ids_nodup _ _
      (keysOf_build_nodup _ _) (nameKeysOf_build_nodup _)
      (build_id_inv _ _) (buildName_id_inv _))

theorem rankLookup_isSome_iff_mem (k : Nat)
    (l : List (Nat × Nat × ProductCategory)) :
    (rankLookup k l).isSome = true ↔ k ∈ keysOf l := by
  rcases h : rankLookup k l with _ | p
  · simp only [Option.isSome_none, Bool.false_eq_true, false_iff]
    exact (rankLookup_eq_none_iff k l).mp h
  · simp only [Option.isSome_some, true_iff]
    by_contra hc
    rw [(rankLookup_eq_none_iff k l).mpr hc] at h
    exact absurd h (by simp)

theorem kwMatched_iff_mem_keys (db : DB) (q : String) (k : Nat) :
    kwMatched db q k = true ↔
      k ∈ keysOf (buildKeywordRanks (normalizeQuery q)
        (keyword_rows db (searchPattern q))) := by
  rw [← rankLookup_isSome_iff_mem, rankLookup_build_isSome]
  rfl

theorem nameMatched_iff_mem_keys (db : DB) (q : String) (k : Nat) :
    nameMatched db q k = true ↔
      k ∈ nameKeysOf (buildNameCategories (name_rows db (searchPattern q))) := by
  rw [nameKeysOf_mem_iff]
  have h := dictLookup_build_isSome k (name_rows db (searchPattern q)) []
  rw [buildNameCategories]
  rw [h]
  simp [nameMatched, dictLookup]

theorem searchRanked_mem_iff (db : DB) (q : String) (k : Nat) :
    (∃ e ∈ searchRanked db q, e.2.2.id = k) ↔
      (kwMatched db q k = true ∨ nameMatched db q k = true) := by
  have hperm := searchRanked_perm db q
  constructor
  · intro ⟨e, he, hek⟩
    have he2 := hperm.mem_iff.mp he
    have := (rankedEntries_mem_iff _ _ (build_id_inv _ _)
      (buildName_id_inv _) k).mp ⟨e, he2, hek⟩
    rcases this with h | h
    · exact Or.inl ((kwMatched_iff_mem_keys db q k).mpr h)
    · exact Or.inr ((nameMatched_iff_mem_keys db q k).mpr h)
  · intro h
    have h2 : k ∈ keysOf (buildKeywordRanks (normalizeQuery q)
        (keyword_rows db (searchPattern q))) ∨
        k ∈ nameKeysOf (buildNameCategories (name_rows db (searchPattern q))) := by
      rcases h with h | h
      · exact Or.inl ((kwMatched_iff_mem_keys db q k).mp h)
      · exact Or.inr ((nameMatched_iff_mem_keys db q k).mp h)
    obtain ⟨e, he, hek⟩ := (rankedEntries_mem_iff _ _ (build_id_inv _ _)
      (buildName_id_inv _) k).mpr h2
    exact ⟨e, hperm.mem_iff.mpr he, hek⟩

theorem searchRanked_rank (db : DB) (q : String) :
    ∀ e ∈ searchRanked db q,
      (∀ p, rankLookup e.2.2.id (buildKeywordRanks (normalizeQuery q)
          (keyword_rows db (searchPattern q))) = some p → e.1 = p.1) ∧
      (rankLookup e.2.2.id (buildKeywordRanks (normalizeQuery q)
          (keyword_rows db (searchPattern q))) = none → e.1 = NAME_MATCH) := by
  intro e he
  have he2 := (searchRanked_perm db q).mem_iff.mp he
  exact rankedEntries_rank _ _ (keysOf_build_nodup _ _) (build_id_inv _ _)
    (buildName_id_inv _) e he2

theorem searchRanked_name (db : DB) (q : String) :
    ∀ e ∈ searchRanked db q, e.2.1 = lowerData e.2.2.name := by
  intro e he
  exact rankedEntries_name _ _ e ((searchRanked_perm db q).mem_iff.mp he)

/-- An exactly-matching keyword places its (join-resolved) category in the
ranked candidates at rank EXACT. -/
theorem exact_keyword_tier0 (db : DB) (q : String) (kw : ProductKeyword)
    (c : ProductCategory) (hkw : kw ∈ db.keywords)
    (hres : db.categories.find? (fun x => x.id == kw.category_id) = some c)
    (hex : lowerData kw.keyword = normalizeQuery q) :
    ∃ e ∈ searchRanked db q, e.2.2.id = c.id ∧ e.1 = EXACT := by
  have hrow : (kw, c) ∈ keyword_rows db (searchPattern q) := by
    rw [keyword_rows]
    refine List.mem_filterMap.mpr ⟨kw, hkw, ?_⟩
    have hil : ilikeB (searchPattern q) kw.keyword = true := by
      rw [ilikeB, hex, searchPattern]
      exact likeMatch_self_pattern (normalizeQuery q)
    rw [if_pos hil, hres]
    rfl
  have hsc : (0 : Nat) ∈ scoresFor (normalizeQuery q) c.id
      (keyword_rows db (searchPattern q)) := by
    rw [scoresFor]
    refine List.mem_map.mpr ⟨(kw, c), List.mem_filter.mpr ⟨hrow, by simp⟩, ?_⟩
    show keywordRank (normalizeQuery q) (lowerData kw.keyword) = 0
    rw [hex, keywordRank, if_pos (by simp)]
    rfl
  have hsome : (rankLookup c.id (buildKeywordRanks (normalizeQuery q)
      (keyword_rows db (searchPattern q)))).isSome = true := by
    rw [rankLookup_build_isSome]
    exact List.any_eq_true.mpr ⟨(kw, c), hrow, by simp⟩
  obtain ⟨p, hp⟩ := Option.isSome_iff_exists.mp hsome
  have hmin := rankLookup_min (normalizeQuery q) _ c.id p.1 p.2
    (by rw [hp])
  have hp1 : p.1 = 0 := Nat.le_zero.mp (hmin.2 0 hsc)
  have hmem : c.id ∈ keysOf (buildKeywordRanks (normalizeQuery q)
      (keyword_rows db (searchPattern q))) :=
    (rankLookup_isSome_iff_mem _ _).mp hsome
  obtain ⟨e, he, hek⟩ := (searchRanked_mem_iff db q c.id).mpr
    (Or.inl ((kwMatched_iff_mem_keys db q c.id).mpr hmem))
  refine ⟨e, he, hek, ?_⟩
  have hrank := (searchRanked_rank db q e he).1 p (by rw [hek]; exact hp)
  rw [hrank, hp1]
  rfl


/-! ## Lemmas about the category listing -/

theorem order_by_name_perm (l : List ProductCategory) :
    List.Perm (order_by_name l) l := List.mergeSort_perm _ _

theorem order_by_name_sorted (l : List ProductCategory) :
    List.Pairwise
      (fun a b => charListLe (lowerData a.name) (lowerData b.name) = true)
      (order_by_name l) :=
  @List.sorted_mergeSort ProductCategory
    (fun a b => charListLe (lowerData a.name) (lowerData b.name))
    (fun _ _ _ h1 h2 => charListLe_trans _ _ _ h1 h2)
    (fun _ _ => charListLe_total _ _) l

unseal likeMatch List.merge List.mergeSort


/-! ## Claim theorems -/

/-- C1 counterexample: the query of two space characters has fewer than 2
non-whitespace characters, yet the route accepts it and returns a
SearchResult instead of failing with a validation error (FastAPI
`min_length=2` counts raw characters, whitespace included). -/
theorem C1_counterexample :
    nonWhitespaceCount "  " < 2 ∧
    search_categories ⟨[], []⟩ "  " = Except.ok ⟨[], "  ", 0⟩ :=
  ⟨by decide, by decide⟩

/-- C1 (amended): search fails with the validation error exactly when the
raw query string has fewer than 2 characters (whitespace included); any
query of raw length at least 2 — even whitespace-only — is accepted and
returns a SearchResult. -/
theorem C1_raw_length_validation (db : DB) (q : String) :
    (q.length < 2 → search_categories db q = Except.error minLengthError) ∧
    (2 ≤ q.length → ∃ r : SearchResult,
      search_categories db q = Except.ok r) := by
  constructor
  · intro h
    simp only [search_categories, if_pos h]
  · intro h
    refine ⟨⟨(searchRanked db q).map fun e => CategorySummary.model_validate
      e.2.2, q, ((searchRanked db q).map fun e =>
        CategorySummary.model_validate e.2.2).length⟩, ?_⟩
    simp only [search_categories, if_neg (by omega : ¬q.length < 2)]

theorem C1_raw_length_validation_witness :
    search_categories dbA "a" = Except.error minLengthError ∧
    ∃ r : SearchResult, search_categories dbA "ab" = Except.ok r :=
  ⟨(C1_raw_length_validation dbA "a").1 (by decide),
   (C1_raw_length_validation dbA "ab").2 (by decide)⟩

/-- C2: against the snapshot holding the single keyword ab on catCough, the
valid query of the two characters a and underscore returns catCough even
though neither the keyword nor the category name contains the normalized
query as a literal substring — the route interpolates the query unescaped
into the ILIKE pattern, so the underscore acts as a wildcard.  This
contradicts the claim (and the route docstring, which promises
keyword-contains / name-contains matching). -/
theorem C2_wildcard_divergence :
    nonWhitespaceCount "a_" = 2 ∧
    specContainsSub (normalizeQuery "a_") (lowerData "ab") = false ∧
    specContainsSub (normalizeQuery "a_") (lowerData catCough.name) = false ∧
    search_categories dbW "a_" =
      Except.ok ⟨[CategorySummary.model_validate catCough], "a_", 1⟩ :=
  ⟨by decide, by decide, by decide, by decide⟩

/-- C3: the ranked candidates are pairwise ordered by (tier ascending,
lowercased name ascending); every tier-EXACT entry sits at a strictly
earlier index than every entry of tier STARTS_WITH or worse; and a category
owning a keyword whose lowercase form equals the normalized query does
appear, with tier EXACT. -/
theorem C3_sorted_by_tier_then_name (db : DB) (q : String) :
    List.Pairwise entryLeP (searchRanked db q) ∧
    (∀ i j : Fin (searchRanked db q).length,
      ((searchRanked db q).get i).1 = EXACT →
      STARTS_WITH ≤ ((searchRanked db q).get j).1 → i < j) ∧
    (∀ kw ∈ db.keywords, ∀ c : ProductCategory,
      db.categories.find? (fun x => x.id == kw.category_id) = some c →
      lowerData kw.keyword = normalizeQuery q →
      ∃ e ∈ searchRanked db q, e.2.2.id = c.id ∧ e.1 = EXACT) := by
  refine ⟨?_, ?_, ?_⟩
  · exact (searchRanked_sorted db q).imp fun h => (entryLe_iff _ _).mp h
  · intro i j h0 h1
    rcases Nat.lt_trichotomy i.1 j.1 with h | h | h
    · exact h
    · have hij : i = j := Fin.ext h
      subst hij
      rw [h0] at h1
      exact absurd h1 (by decide)
    · have hp := List.pairwise_iff_get.mp (searchRanked_sorted db q) j i h
      have hP := (entryLe_iff _ _).mp hp
      rcases hP with hP | ⟨hP, _⟩
      · rw [h0] at hP
        exact absurd (h1.trans_lt hP) (by decide)
      · rw [h0] at hP
        rw [hP] at h1
        exact absurd h1 (by decide)
  · intro kw hkw c hres hex
    exact exact_keyword_tier0 db q kw c hkw hres hex

theorem C3_sorted_by_tier_then_name_witness :
    ∃ e ∈ searchRanked dbA "tylenol", e.2.2.id = catPain.id ∧ e.1 = EXACT :=
  (C3_sorted_by_tier_then_name dbA "tylenol").2.2 ⟨10, 1, "tylenol"⟩
    (by decide) catPain (by decide) (by decide)

/-- C4: when the keyword loop credits a category id with a rank, that rank
is the minimum of the scores of all of its selected keyword rows (so weaker
keywords never demote a better tier), and a single keyword scores EXACT
when its lowercase form equals the normalized query, STARTS_WITH when it is
a proper prefix extension, and CONTAINS otherwise. -/
theorem C4_best_keyword_tier (db : DB) (q : String) (k r : Nat)
    (c : ProductCategory)
    (h : rankLookup k (buildKeywordRanks (normalizeQuery q)
        (keyword_rows db (searchPattern q))) = some (r, c)) :
    (r ∈ scoresFor (normalizeQuery q) k (keyword_rows db (searchPattern q)) ∧
      ∀ s ∈ scoresFor (normalizeQuery q) k
        (keyword_rows db (searchPattern q)), r ≤ s) ∧
    ∀ kl : List Char,
      (kl = normalizeQuery q →
        keywordRank (normalizeQuery q) kl = EXACT) ∧
      (kl ≠ normalizeQuery q → (normalizeQuery q).isPrefixOf kl = true →
        keywordRank (normalizeQuery q) kl = STARTS_WITH) ∧
      (kl ≠ normalizeQuery q → (normalizeQuery q).isPrefixOf kl = false →
        keywordRank (normalizeQuery q) kl = CONTAINS) := by
  refine ⟨rankLookup_min _ _ _ _ _ h, ?_⟩
  intro kl
  refine ⟨?_, ?_, ?_⟩
  · intro he
    rw [keywordRank, if_pos (by simp [he])]
  · intro hne hpre
    rw [keywordRank, if_neg (by simp [hne]), if_pos hpre]
  · intro hne hpre
    rw [keywordRank, if_neg (by simp [hne]), if_neg (by simp [hpre])]

theorem C4_best_keyword_tier_witness :
    (0 : Nat) ∈ scoresFor (normalizeQuery "tylenol") 1
      (keyword_rows dbA (searchPattern "tylenol")) :=
  (C4_best_keyword_tier dbA "tylenol" 1 0 catPain (by decide)).1.1

/-- C5: a category id appears among the ranked candidates exactly when it
was credited by the keyword scan or selected by the name scan, and every
candidate carries its keyword-derived rank whenever the keyword dict holds
its id — NAME_MATCH is used only for ids absent from the keyword dict. -/
theorem C5_union_merge_keyword_wins (db : DB) (q : String) :
    (∀ k : Nat, (∃ e ∈ searchRanked db q, e.2.2.id = k) ↔
      (kwMatched db q k = true ∨ nameMatched db q k = true)) ∧
    (∀ e ∈ searchRanked db q,
      (∀ p, rankLookup e.2.2.id (buildKeywordRanks (normalizeQuery q)
          (keyword_rows db (searchPattern q))) = some p → e.1 = p.1) ∧
      (rankLookup e.2.2.id (buildKeywordRanks (normalizeQuery q)
          (keyword_rows db (searchPattern q))) = none →
        e.1 = NAME_MATCH)) :=
  ⟨searchRanked_mem_iff db q, searchRanked_rank db q⟩

theorem C5_union_merge_keyword_wins_witness :
    ∃ e ∈ searchRanked dbW "ab", e.2.2.id = 3 :=
  ((C5_union_merge_keyword_wins dbW "ab").1 3).mpr (Or.inl (by decide))

/-- C6 counterexample: with one root and one child category, the listing
with a null parent filter returns both categories — the child included —
although the child has a non-null parent; a null argument therefore does
not select the roots, it disables the parent filter. -/
theorem C6_counterexample :
    list_categories dbRoots none none =
      [CategorySummary.model_validate catRoot,
        CategorySummary.model_validate catChild] ∧
    catChild.parent_category_id = some catRoot.id :=
  ⟨by decide, by decide⟩

/-- C6 (amended): with a non-null parent argument the listing returns
exactly the categories whose parentCategoryId equals it; a null argument
applies no parent filter and returns all categories; the output is ordered
by name ascending case-insensitively. -/
theorem C6_list_children (db : DB) (pid : Option Nat) :
    (∀ s : CategorySummary, s ∈ list_categories db pid none ↔
      ∃ c ∈ db.categories,
        (pid = none ∨ c.parent_category_id = pid) ∧
        s = CategorySummary.model_validate c) ∧
    List.Pairwise (fun a b : CategorySummary =>
      charListLe (lowerData a.name) (lowerData b.name) = true)
      (list_categories db pid none) := by
  constructor
  · intro s
    cases pid with
    | none =>
      simp only [list_categories, List.mem_map]
      constructor
      · intro ⟨c, hc, hs⟩
        exact ⟨c, (order_by_name_perm _).mem_iff.mp hc, Or.inl (by simp), hs.symm⟩
      · intro ⟨c, hc, _, hs⟩
        exact ⟨c, (order_by_name_perm _).mem_iff.mpr hc, hs.symm⟩
    | some p =>
      simp only [list_categories, List.mem_map]
      constructor
      · intro ⟨c, hc, hs⟩
        have hc2 := (order_by_name_perm _).mem_iff.mp hc
        have hcf := List.mem_filter.mp hc2
        refine ⟨c, hcf.1, Or.inr ?_, hs.symm⟩
        simpa using hcf.2
      · intro ⟨c, hc, hp, hs⟩
        rcases hp with hp | hp
        · exact absurd hp (by simp)
        · exact ⟨c, (order_by_name_perm _).mem_iff.mpr
            (List.mem_filter.mpr ⟨hc, by simp [hp]⟩), hs.symm⟩
  · cases pid with
    | none =>
      simp only [list_categories]
      exact List.pairwise_map.mpr (order_by_name_sorted _)
    | some p =>
      simp only [list_categories]
      exact List.pairwise_map.mpr (order_by_name_sorted _)

theorem C6_list_children_witness :
    CategorySummary.model_validate catChild ∈
      list_categories dbRoots (some 1) none :=
  ((C6_list_children dbRoots (some 1)).1 _).mpr
    ⟨catChild, by decide, Or.inr (by decide), rfl⟩

/-- C7: every successful search result satisfies total equal to the length
of the category list, carries the original query string verbatim, and
lists each category id at most once. -/
theorem C7_result_invariants (db : DB) (q : String) (r : SearchResult)
    (h : search_categories db q = Except.ok r) :
    r.total = r.categories.length ∧ r.query = q ∧
      (r.categories.map fun s => s.id).Nodup := by
  simp only [search_categories] at h
  by_cases hlen : q.length < 2
  · rw [if_pos hlen] at h
    exact absurd h (by simp)
  · rw [if_neg hlen] at h
    have hr := Except.ok.inj h
    subst hr
    refine ⟨rfl, rfl, ?_⟩
    rw [List.map_map]
    exact searchRanked_ids_nodup db q

theorem C7_result_invariants_witness :
    (⟨[CategorySummary.model_validate catPain,
        CategorySummary.model_validate catSleep], "tylenol", 2⟩
      : SearchResult).total =
      (⟨[CategorySummary.model_validate catPain,
          CategorySummary.model_validate catSleep], "tylenol", 2⟩
        : SearchResult).categories.length ∧
    (⟨[CategorySummary.model_validate catPain,
        CategorySummary.model_validate catSleep], "tylenol", 2⟩
      : SearchResult).query = "tylenol" ∧
    ((⟨[CategorySummary.model_validate catPain,
        CategorySummary.model_validate catSleep], "tylenol", 2⟩
      : SearchResult).categories.map fun s => s.id).Nodup :=
  C7_result_invariants dbA "tylenol" _ (by decide)

/-- C8: the route is a pure function of the snapshot and the query — two
successful invocations against the same snapshot return the same category
list, the same query field and the same total. -/
theorem C8_idempotent (db : DB) (q : String) (r1 r2 : SearchResult)
    (h1 : search_categories db q = Except.ok r1)
    (h2 : search_categories db q = Except.ok r2) :
    r1.categories = r2.categories ∧ r1.query = r2.query ∧
      r1.total = r2.total := by
  have h := Except.ok.inj (h1.symm.trans h2)
  rw [h]
  exact ⟨rfl, rfl, rfl⟩

theorem C8_idempotent_witness :
    (⟨[CategorySummary.model_validate catPain,
        CategorySummary.model_validate catSleep], "tylenol", 2⟩
      : SearchResult).categories =
      (⟨[CategorySummary.model_validate catPain,
          CategorySummary.model_validate catSleep], "tylenol", 2⟩
        : SearchResult).categories ∧
    (⟨[CategorySummary.model_validate catPain,
        CategorySummary.model_validate catSleep], "tylenol", 2⟩
      : SearchResult).query =
      (⟨[CategorySummary.model_validate catPain,
          CategorySummary.model_validate catSleep], "tylenol", 2⟩
        : SearchResult).query ∧
    (⟨[CategorySummary.model_validate catPain,
        CategorySummary.model_validate catSleep], "tylenol", 2⟩
      : SearchResult).total =
      (⟨[CategorySummary.model_validate catPain,
          CategorySummary.model_validate catSleep], "tylenol", 2⟩
        : SearchResult).total :=
  C8_idempotent dbA "tylenol" _ _ (by decide) (by decide)

/-- C9: the search route never mutates the taxonomy — after the call (valid
or invalid query alike) the state holds exactly the same categories and
keywords, and the value returned agrees with the pure route function. -/
theorem C9_no_mutation (db : DB) (q : String) :
    (search_categoriesST db q).2.categories = db.categories ∧
    (search_categoriesST db q).2.keywords = db.keywords ∧
    (search_categoriesST db q).1 = search_categories db q := by
  by_cases h : q.length < 2
  · simp [search_categoriesST, search_categories, h]
  · simp [search_categoriesST, search_categories, searchRanked, h]

/-- C10: a successful category-detail lookup by slug returns the stored
seal_types with a null value replaced by the empty list (the response field
is a plain list, never null). -/
theorem C10_seal_types_list (db : DB) (slug : String) (d : CategoryDetail)
    (h : get_category db slug = some d) :
    ∃ c, db.categories.find? (fun x => x.slug == slug) = some c ∧
      d.seal_types = c.seal_types.getD [] := by
  rcases hf : db.categories.find? fun x => x.slug == slug with _ | c
  · unfold get_category at h
    rw [hf] at h
    exact Option.noConfusion h
  · unfold get_category at h
    rw [hf] at h
    refine ⟨c, hf, ?_⟩
    have hd := Option.some.inj h
    rw [← hd]
    cases hst : c.seal_types with
    | none => rfl
    | some l =>
      cases l with
      | nil => rfl
      | cons x xs => rfl

theorem C10_seal_types_list_witness :
    ∃ c, dbW.categories.find? (fun x => x.slug == "cough-syrup") = some c ∧
      (⟨3, "Cough Syrup", "cough-syrup", none, true, none, none, none, none,
        [], none, none, ["ab"], [], none, 0, 0⟩
        : CategoryDetail).seal_types = c.seal_types.getD [] :=
  C10_seal_types_list dbW "cough-syrup" _ (by decide)

end SealSearch
